import Mathlib

/-!
Shallow embedding of `src/core/ranges.js` (rx-player buffered-interval
tracker).  JavaScript floating-point timestamps are modelled as rationals
(`ℚ`); the tolerance constant `EPSILON = 0.00001` becomes `1/100000`.
Arrays mutated in place by the source become lists transformed purely; the
`assert(start <= end)` at the top of `insertInto` is modelled by an
`Option` result (`none` = assertion failure, nothing mutated).
-/

namespace Rx

/-- `var EPSILON = 0.00001;` -/
def EPSILON : ℚ := 1 / 100000

/-- A buffered range `{ start, end, bitrate }`.  The JS field `end` is a
Lean keyword, so it is called `stop` here. -/
structure Range where
  start : ℚ
  stop : ℚ
  bitrate : ℚ
deriving DecidableEq, Repr

/-- `nearlyEqual(a, b)`: `Math.abs(a - b) < EPSILON`. -/
abbrev nearlyEqual (a b : ℚ) : Prop := |a - b| < EPSILON

/-- `nearlyLt(a, b)`: `a - b <= EPSILON`. -/
abbrev nearlyLt (a b : ℚ) : Prop := a - b ≤ EPSILON

/-- `isPointInRange(r, point)`: `r.start <= point && point < r.end`. -/
abbrev isPointInRange (r : Range) (point : ℚ) : Prop :=
  r.start ≤ point ∧ point < r.stop

/-- `areOverlappingRanges(r1, r2)`. -/
abbrev areOverlappingRanges (r1 r2 : Range) : Prop :=
  isPointInRange r1 r2.start ∨ isPointInRange r1 r2.stop ∨ isPointInRange r2 r1.start

/-- `isContainedInto(r1, r2)`: `r2` lies inside `r1`. -/
abbrev isContainedInto (r1 r2 : Range) : Prop :=
  isPointInRange r1 r2.start ∧ isPointInRange r1 r2.stop

/-- `areContiguousWithRanges(r1, r2)`. -/
abbrev areContiguousWithRanges (r1 r2 : Range) : Prop :=
  nearlyEqual r2.start r1.stop ∨ nearlyEqual r2.stop r1.start

/-- `unionWithOverlappingOrContiguousRange(r1, r2, bitrate)`. -/
def unionWithOverlappingOrContiguousRange (r1 r2 : Range) (bitrate : ℚ) : Range :=
  ⟨min r1.start r2.start, max r1.stop r2.stop, bitrate⟩

/-- `isOrdered(r1, r2)`: `r1.end <= r2.start`. -/
abbrev isOrdered (r1 r2 : Range) : Prop := r1.stop ≤ r2.start

/-- `sameBitrate(r1, r2)`: `r1.bitrate === r2.bitrate`. -/
abbrev sameBitrate (r1 r2 : Range) : Prop := r1.bitrate = r2.bitrate

/-- `removeEmptyRanges(ranges)`.  The source loop
`for (index = 0; ...; index++) if (empty) ranges.splice(index++, 1);`
removes the range at `index` and then resumes two positions further in the
shifted array (post-increment inside the body plus the loop increment), so
the two elements that follow a removed range are not inspected. -/
def removeEmptyRanges : List Range → List Range
  | [] => []
  | r :: rest =>
    if r.start = r.stop then
      match rest with
      | [] => []
      | [s] => [s]
      | s :: t :: rest3 => s :: t :: removeEmptyRanges rest3
    else
      r :: removeEmptyRanges rest

/-- `mergeContiguousRanges(ranges)`: after `splice(--index, 2, unionRange)`
the loop next compares the union with the following element. -/
def mergeContiguousRanges : List Range → List Range
  | [] => []
  | [r] => [r]
  | r :: s :: rest =>
    if sameBitrate r s ∧ areContiguousWithRanges r s then
      mergeContiguousRanges (unionWithOverlappingOrContiguousRange r s s.bitrate :: rest)
    else
      r :: mergeContiguousRanges (s :: rest)
termination_by l => l.length

/-- The scan loop of `insertInto`.  `prev` holds the array elements at
positions `0 .. index-1` (the JS loop maintains `index = prev.length` at
the top of every iteration), `rest` the elements not yet inspected, and
`added` the current `addedRange`.  Each branch mirrors one `splice` /
field-mutation of the source; the trailing `ranges.splice(index, 0,
addedRange)` after the loop (or after a `break`) is the `prev ++ added ::
...` result in the corresponding case. -/
def insertLoop (added : Range) (prev : List Range) : List Range → List Range
  | [] => prev ++ [added]
  | current :: rest =>
    if areOverlappingRanges added current ∨ areContiguousWithRanges added current then
      if sameBitrate added current then
        -- merge: `addedRange = union(...); ranges.splice(index--, 1);`
        insertLoop (unionWithOverlappingOrContiguousRange added current current.bitrate) prev rest
      else if areOverlappingRanges added current then
        if isContainedInto current added then
          -- split: `ranges.splice(++index, 0, addedRange);
          -- currentRange.end = addedRange.start;` and the right remainder
          -- becomes the new `addedRange`.
          insertLoop ⟨added.stop, current.stop, current.bitrate⟩
            (prev ++ [⟨current.start, added.start, current.bitrate⟩, added]) rest
        else if isContainedInto added current then
          -- `ranges.splice(index--, 1);`
          insertLoop added prev rest
        else if current.start < added.start then
          -- `currentRange.end = addedRange.start;`
          insertLoop added (prev ++ [⟨current.start, added.start, current.bitrate⟩]) rest
        else
          -- `currentRange.start = addedRange.end; break;`
          prev ++ added :: ⟨added.stop, current.stop, current.bitrate⟩ :: rest
      else
        -- contiguous, different bitrates: `break;`
        prev ++ added :: current :: rest
    else
      match prev.getLast? with
      | none =>
        if isOrdered added current then prev ++ added :: current :: rest
        else insertLoop added (prev ++ [current]) rest
      | some p =>
        if isOrdered p added ∧ isOrdered added current then prev ++ added :: current :: rest
        else insertLoop added (prev ++ [current]) rest

/-- `insertInto(ranges, bitrate, start, end)`.  `none` models the
`assert(start <= end)` failure (the operation aborts before touching the
array); `start == end` returns at once with the array unchanged. -/
def insertInto (ranges : List Range) (bitrate start stop : ℚ) : Option (List Range) :=
  if start ≤ stop then
    if start = stop then some ranges
    else some (mergeContiguousRanges (removeEmptyRanges
      (insertLoop ⟨start, stop, bitrate⟩ [] ranges)))
  else none

/-- `findOverlappingRange(range, others)`: first overlapping element. -/
def findOverlappingRange (range : Range) : List Range → Option Range
  | [] => none
  | o :: rest =>
    if areOverlappingRanges range o then some o else findOverlappingRange range rest

/-- `intersect(ranges, others)`.  `splice(i--, 1)` drops the range and
re-inspects the element that slid into its slot, i.e. the scan simply
continues with the tail. -/
def intersect : List Range → List Range → List Range
  | [], _ => []
  | r :: rest, others =>
    match findOverlappingRange r others with
    | none => intersect rest others
    | some o =>
      let r1 := if o.start > r.start then { r with start := o.start } else r
      let r2 := if o.stop < r1.stop then { r1 with stop := o.stop } else r1
      r2 :: intersect rest others

/-- The downward `while (--i >= 0 && ts < start)` scan of the free
function `getRange`, applied to the reversed list: it returns the first
pair, counting from the highest index, whose `start` is `<= ts` — without
ever testing `ts < end`. -/
def getRangeLoop (ts : ℚ) : List Range → Option (ℚ × ℚ)
  | [] => none
  | r :: rest => if ts ≥ r.start then some (r.start, r.stop) else getRangeLoop ts rest

/-- Free function `getRange(ts, ranges)` over a ranges-capable collection. -/
def getRange (ts : ℚ) (ranges : List Range) : Option (ℚ × ℚ) :=
  getRangeLoop ts ranges.reverse

/-- Free function `getGap(ts, ranges)` in its collection form (`isRanges`
true): `range.end - ts`, or `Infinity` (modelled as `⊤`) when `getRange`
gives `null`. -/
def getGap (ts : ℚ) (ranges : List Range) : WithTop ℚ :=
  match getRange ts ranges with
  | some p => ((p.2 - ts : ℚ) : WithTop ℚ)
  | none => ⊤

/-- Engine method `hasRange(startTime, duration)`: first stored range that
ε-contains the whole interval `[startTime, startTime + duration]`. -/
def hasRange (ranges : List Range) (startTime duration : ℚ) : Option Range :=
  ranges.find? fun r =>
    decide ((nearlyLt r.start startTime ∧ nearlyLt startTime r.stop) ∧
            (nearlyLt r.start (startTime + duration) ∧ nearlyLt (startTime + duration) r.stop))

/-- A JavaScript `{ start, end, bitrate? }` record as handed around by the
interop adapter; `bitrate = none` models a plain `{ start, end }` record
without a bitrate property. -/
structure JsRecord where
  start : ℚ
  stop : ℚ
  bitrate : Option ℚ
deriving DecidableEq, Repr

/-- `_.cloneArray` (canal-js-utils): a copy of the array; element values
are unchanged. -/
def cloneArray (l : List JsRecord) : List JsRecord := l.map id

/-- The record stored in `BufferedRanges.ranges`, as a `JsRecord`: it
carries its `bitrate` property. -/
def rangeRecord (r : Range) : JsRecord := ⟨r.start, r.stop, some r.bitrate⟩

/-- `bufferedToArray(ranges)`, branch `ranges instanceof BufferedRanges`:
`_.cloneArray(ranges.ranges)`. -/
def bufferedToArrayOwn (engine : List Range) : List JsRecord :=
  cloneArray (engine.map rangeRecord)

/-- `bufferedToArray(ranges)`, generic branch: builds
`{ start: ranges.start(i), end: ranges.end(i) }` across the collection. -/
def bufferedToArrayForeign (ranges : List JsRecord) : List JsRecord :=
  ranges.map fun r => ⟨r.start, r.stop, none⟩

/-- A timestamp is covered by the list when a stored range contains it
(ranges are half-open `[start, end)`). -/
def coveredBy (l : List Range) (p : ℚ) : Prop :=
  ∃ r ∈ l, r.start ≤ p ∧ p < r.stop

/-- Every stored range has strictly positive length. -/
def strictRanges (l : List Range) : Prop := ∀ r ∈ l, r.start < r.stop

/-- Consecutive ranges are ordered and non-overlapping. -/
def chainOrdered (l : List Range) : Prop := l.Chain' fun a b => a.stop ≤ b.start

/-! ## Claim theorems -/

/-- C1: REFUTED — the code has a bug.  Both calls below are valid
(`0 ≤ start < end`), yet after `insert(1, 0, 1)` the call
`insert(2, 1 + 1/200000, 2)` hits the "contiguous with a different
bitrate" `break` at index 0 (the gap `1/200000` is below `EPSILON`) and
the final `splice(index, 0, addedRange)` puts the added range *before*
the range it is contiguous *after*.  The resulting list
`[{1+1/200000, 2, 2}, {0, 1, 1}]` violates the claimed order invariant
`end(i) ≤ start(i+1) + EPSILON` for the adjacent pair. -/
theorem c1_order_invariant_violated :
    insertInto [] 1 0 1 = some [⟨0, 1, 1⟩] ∧
    insertInto [⟨0, 1, 1⟩] 2 (200001/200000) 2 =
      some [⟨200001/200000, 2, 2⟩, ⟨0, 1, 1⟩] ∧
    ¬ ((⟨200001/200000, 2, 2⟩ : Range).stop ≤ (⟨0, 1, 1⟩ : Range).start + EPSILON) := by
  refine ⟨?_, ?_, ?_⟩
  · norm_num [insertInto, insertLoop, removeEmptyRanges, mergeContiguousRanges]
  · norm_num [insertInto, insertLoop, removeEmptyRanges, mergeContiguousRanges,
      EPSILON, abs_lt, unionWithOverlappingOrContiguousRange,
      areOverlappingRanges, areContiguousWithRanges, isPointInRange,
      isContainedInto, nearlyEqual, sameBitrate, isOrdered]
  · norm_num [EPSILON]

/-- C2: when the candidate `[s, e)` with bitrate `b` is strictly contained
in the single existing range `r` of a different bitrate, `insert` splits
`r` into the left remainder `[r.start, s)` (old bitrate), the candidate,
and the right remainder `[e, r.stop)` (old bitrate). -/
theorem c2_containment_split (r : Range) (b s e : ℚ)
    (h1 : r.start < s) (h2 : s < e) (h3 : e < r.stop) (hb : b ≠ r.bitrate) :
    insertInto [r] b s e =
      some [⟨r.start, s, r.bitrate⟩, ⟨s, e, b⟩, ⟨e, r.stop, r.bitrate⟩] := by
  have hpt : isPointInRange r s := ⟨h1.le, h2.trans h3⟩
  have hov : areOverlappingRanges ⟨s, e, b⟩ r := Or.inr (Or.inr hpt)
  have hsame : ¬ sameBitrate (⟨s, e, b⟩ : Range) r := hb
  have hcont : isContainedInto r ⟨s, e, b⟩ := ⟨hpt, ⟨(h1.trans h2).le, h3⟩⟩
  have hloop : insertLoop ⟨s, e, b⟩ [] [r] =
      [⟨r.start, s, r.bitrate⟩, ⟨s, e, b⟩, ⟨e, r.stop, r.bitrate⟩] := by
    rw [insertLoop, if_pos (Or.inl hov), if_neg hsame, if_pos hov, if_pos hcont,
      insertLoop]
    simp
  have hrm : removeEmptyRanges
      [⟨r.start, s, r.bitrate⟩, ⟨s, e, b⟩, ⟨e, r.stop, r.bitrate⟩] =
      [⟨r.start, s, r.bitrate⟩, ⟨s, e, b⟩, ⟨e, r.stop, r.bitrate⟩] := by
    rw [removeEmptyRanges, if_neg (show ¬ (r.start = s) from h1.ne),
      removeEmptyRanges, if_neg (show ¬ (s = e) from h2.ne),
      removeEmptyRanges, if_neg (show ¬ (e = r.stop) from h3.ne),
      removeEmptyRanges]
  have hmg : mergeContiguousRanges
      [⟨r.start, s, r.bitrate⟩, ⟨s, e, b⟩, ⟨e, r.stop, r.bitrate⟩] =
      [⟨r.start, s, r.bitrate⟩, ⟨s, e, b⟩, ⟨e, r.stop, r.bitrate⟩] := by
    rw [mergeContiguousRanges, if_neg, mergeContiguousRanges, if_neg,
      mergeContiguousRanges]
    · exact fun h => hb h.1
    · exact fun h => hb h.1.symm
  rw [insertInto, if_pos h2.le, if_neg h2.ne, hloop, hrm, hmg]

/-- C2 witness: `insert(1, 0, 20)` then `insert(2, 5, 10)` on an initially
empty engine gives exactly the three claimed ranges. -/
theorem c2_containment_split_witness :
    insertInto [] 1 0 20 = some [⟨0, 20, 1⟩] ∧
    insertInto [⟨0, 20, 1⟩] 2 5 10 =
      some [⟨0, 5, 1⟩, ⟨5, 10, 2⟩, ⟨10, 20, 1⟩] := by
  constructor
  · norm_num [insertInto, insertLoop, removeEmptyRanges, mergeContiguousRanges]
  · have h := c2_containment_split ⟨0, 20, 1⟩ 2 5 10 (by norm_num) (by norm_num)
      (by norm_num) (by norm_num)
    simpa using h

/-- C3: REFUTED — the code has a bug.  All five calls below are valid
(`0 ≤ start < end`), so the state reached after the first four calls is
reachable by valid `insert` calls; yet repeating the fourth call changes
the list again: the first application trims the range `{0, 1, 1}` down to
`{0, 1/2, 1}`, and on the second application the candidate
`[100001/200000, 5/2)` is no longer overlapping but only ε-contiguous
after that trimmed range, so the scan hits the "contiguous, different
bitrate" `break` at index 0 and splices a second copy of the candidate at
the front of the list. -/
theorem c3_insert_not_idempotent :
    insertInto [] 1 0 1 = some [⟨0, 1, 1⟩] ∧
    insertInto [⟨0, 1, 1⟩] 2 (200001/200000) 2 =
      some [⟨200001/200000, 2, 2⟩, ⟨0, 1, 1⟩] ∧
    insertInto [⟨200001/200000, 2, 2⟩, ⟨0, 1, 1⟩] 3 (1/2) (3/2) =
      some [⟨1/2, 3/2, 3⟩, ⟨3/2, 2, 2⟩, ⟨0, 1, 1⟩] ∧
    insertInto [⟨1/2, 3/2, 3⟩, ⟨3/2, 2, 2⟩, ⟨0, 1, 1⟩] 3 (100001/200000) (5/2) =
      some [⟨0, 1/2, 1⟩, ⟨1/2, 5/2, 3⟩] ∧
    insertInto [⟨0, 1/2, 1⟩, ⟨1/2, 5/2, 3⟩] 3 (100001/200000) (5/2) =
      some [⟨100001/200000, 5/2, 3⟩, ⟨0, 1/2, 1⟩, ⟨1/2, 5/2, 3⟩] ∧
    ([⟨100001/200000, 5/2, 3⟩, ⟨0, 1/2, 1⟩, ⟨1/2, 5/2, 3⟩] : List Range) ≠
      [⟨0, 1/2, 1⟩, ⟨1/2, 5/2, 3⟩] := by
  refine ⟨?_, ?_, ?_, ?_, ?_, by simp⟩ <;>
    norm_num [insertInto, insertLoop, removeEmptyRanges, mergeContiguousRanges,
      EPSILON, abs_lt, unionWithOverlappingOrContiguousRange,
      areOverlappingRanges, areContiguousWithRanges, isPointInRange,
      isContainedInto, nearlyEqual, sameBitrate, isOrdered]

/-- C9: `insertInto` with `start > end` fails its `assert` before touching
the list (modelled by a `none` result), and `start = end` returns at once
with the list unchanged. -/
theorem c9_precondition_handling (ranges : List Range) (b s e : ℚ) :
    (s > e → insertInto ranges b s e = none) ∧
    insertInto ranges b s s = some ranges := by
  constructor
  · intro h
    rw [insertInto, if_neg (not_le.mpr h)]
  · rw [insertInto, if_pos le_rfl, if_pos rfl]

/-- C9 witness: concrete instance of the precondition behaviour. -/
theorem c9_precondition_handling_witness :
    insertInto [⟨0, 1, 1⟩] 1 5 2 = none ∧
    insertInto [⟨0, 1, 1⟩] 1 5 5 = some [⟨0, 1, 1⟩] := by
  have h := c9_precondition_handling [⟨0, 1, 1⟩] 1 5 2
  exact ⟨h.1 (by norm_num), (c9_precondition_handling [⟨0, 1, 1⟩] 1 5 5).2⟩

/-- C4 counterexample: `intersect` never prunes zero-length ranges.  The
engine state `[{8, 10, 1}]` is reachable (`insert(1, 8, 10)` on an empty
engine), and intersecting with `others = [{5, 8}]` leaves the zero-length
range `{8, 8, 1}` in the list: the touching endpoint `8` counts as an
overlap (`8 ∈ [8, 10)`), so the range is clamped to `[8, 8]` instead of
being removed, and no cleanup pass runs. -/
theorem c4_intersect_keeps_zero_length :
    insertInto [] 1 8 10 = some [⟨8, 10, 1⟩] ∧
    intersect [⟨8, 10, 1⟩] [⟨5, 8, 0⟩] = [⟨8, 8, 1⟩] ∧
    ¬ strictRanges (intersect [⟨8, 10, 1⟩] [⟨5, 8, 0⟩]) := by
  have h : intersect [⟨8, 10, 1⟩] [⟨5, 8, 0⟩] = [⟨8, 8, 1⟩] := by
    norm_num [intersect, findOverlappingRange, areOverlappingRanges, isPointInRange]
  refine ⟨?_, h, fun hs => ?_⟩
  · norm_num [insertInto, insertLoop, removeEmptyRanges, mergeContiguousRanges]
  · have := hs ⟨8, 8, 1⟩ (by rw [h]; exact List.mem_singleton_self _)
    norm_num at this

/-- The behaviour of `intersect` as the spec describes it: keep each
engine range that has an overlapping range in `others` — the first one
found — with `start` clamped up to the overlap's start and `stop` clamped
down to the overlap's end and the bitrate preserved; drop every engine
range with no overlap. -/
def intersectSpec (ranges others : List Range) : List Range :=
  ranges.filterMap fun r =>
    match findOverlappingRange r others with
    | none => none
    | some o => some ⟨max r.start o.start, min r.stop o.stop, r.bitrate⟩

/-- C6: `intersect` computes exactly the spec's clamp-or-drop
transformation, and on `[{0,10}]` against `others = [{5,8}]` it yields
`[{5,8}]` with the engine range's bitrate. -/
theorem c6_intersect_correct :
    (∀ ranges others : List Range, intersect ranges others = intersectSpec ranges others) ∧
    intersect [⟨0, 10, 7⟩] [⟨5, 8, 0⟩] = [⟨5, 8, 7⟩] := by
  have main : ∀ ranges others : List Range,
      intersect ranges others = intersectSpec ranges others := by
    intro ranges others
    induction ranges with
    | nil => rfl
    | cons r rest ih =>
      rw [intersect, intersectSpec, List.filterMap_cons]
      cases hf : findOverlappingRange r others with
      | none => simpa [intersectSpec] using ih
      | some o =>
        have h1 : (if o.start > r.start then ({ r with start := o.start } : Range) else r) =
            ⟨max r.start o.start, r.stop, r.bitrate⟩ := by
          split_ifs with h
          · simp [max_eq_right h.le]
          · simp [max_eq_left (not_lt.mp h)]
        have h2 : (if o.stop < r.stop then
              ({ (⟨max r.start o.start, r.stop, r.bitrate⟩ : Range) with stop := o.stop })
            else (⟨max r.start o.start, r.stop, r.bitrate⟩ : Range)) =
            ⟨max r.start o.start, min r.stop o.stop, r.bitrate⟩ := by
          split_ifs with h
          · simp [min_eq_right h.le]
          · simp [min_eq_left (not_lt.mp h)]
        simp only [h1, h2, ih, intersectSpec]
  refine ⟨main, ?_⟩
  norm_num [intersect, findOverlappingRange, areOverlappingRanges, isPointInRange]

/-- C7: the engine method `hasRange(startTime, duration)` answers non-null
exactly when some stored range ε-contains the whole interval
`[startTime, startTime + duration]`, every non-null answer is a stored
range, and on the claim's examples: `hasRange(2, 3)` finds `{0,10}` but
not `{0,4}`. -/
theorem c7_hasRange_characterisation (ranges : List Range) (t d : ℚ) (hd : 0 ≤ d) :
    ((hasRange ranges t d).isSome ↔
      ∃ r ∈ ranges, r.start - t ≤ EPSILON ∧ t - r.stop ≤ EPSILON ∧
        r.start - (t + d) ≤ EPSILON ∧ (t + d) - r.stop ≤ EPSILON) ∧
    (∀ r, hasRange ranges t d = some r → r ∈ ranges) ∧
    hasRange [⟨0, 10, 1⟩] 2 3 = some ⟨0, 10, 1⟩ ∧
    hasRange [⟨0, 4, 1⟩] 2 3 = none := by
  refine ⟨?_, fun r h => List.mem_of_find?_eq_some h, ?_, ?_⟩
  · simp [hasRange, List.find?_isSome, nearlyLt, and_assoc]
  · norm_num [hasRange, List.find?, nearlyLt, EPSILON]
  · norm_num [hasRange, List.find?, nearlyLt, EPSILON]

/-- C7 witness: the characterisation applied at `duration = 3 ≥ 0` on the
collection `[{0, 10, 1}]`. -/
theorem c7_hasRange_characterisation_witness :
    (0 : ℚ) ≤ 3 ∧ hasRange [⟨0, 10, 1⟩] 2 3 = some ⟨0, 10, 1⟩ :=
  ⟨by norm_num, (c7_hasRange_characterisation [⟨0, 10, 1⟩] 2 3 (by norm_num)).2.2.1⟩

/-- C8 counterexample: on the engine's own collection `bufferedToArray`
returns `_.cloneArray(ranges.ranges)`, whose records keep their `bitrate`
property — they are not the plain bitrate-less `{start, end}` records the
claim asserts. -/
theorem c8_own_branch_keeps_bitrate :
    bufferedToArrayOwn [⟨0, 10, 1⟩] = [⟨0, 10, some 1⟩] ∧
    ([⟨0, 10, some 1⟩] : List JsRecord) ≠ [⟨0, 10, none⟩] := by
  exact ⟨rfl, by simp⟩

/-- C8 amended: for a foreign ranges-capable collection the result has
exactly the collection's length and its `i`-th record is
`{start: start(i), end: end(i)}` with no bitrate; for the engine's own
collection the result is a same-length copy whose `i`-th record keeps the
stored range's start, end *and* bitrate. -/
theorem c8_bufferedToArray_characterisation (engine : List Range) (foreign : List JsRecord) :
    (bufferedToArrayForeign foreign).length = foreign.length ∧
    (∀ i : ℕ, (bufferedToArrayForeign foreign)[i]? =
      foreign[i]?.map fun r => ⟨r.start, r.stop, none⟩) ∧
    (bufferedToArrayOwn engine).length = engine.length ∧
    (∀ i : ℕ, (bufferedToArrayOwn engine)[i]? =
      engine[i]?.map fun r => ⟨r.start, r.stop, some r.bitrate⟩) := by
  refine ⟨by simp [bufferedToArrayForeign], fun i => ?_,
    by simp [bufferedToArrayOwn, cloneArray], fun i => ?_⟩
  · simp [bufferedToArrayForeign]
  · simp only [bufferedToArrayOwn, cloneArray, List.map_id, List.getElem?_map]
    cases engine[i]? <;> simp [rangeRecord]

/-- The downward scan returns `none` exactly when every inspected range
starts strictly after `ts`. -/
theorem getRangeLoop_none_iff {ts : ℚ} {l : List Range} :
    getRangeLoop ts l = none ↔ ∀ r ∈ l, ts < r.start := by
  induction l with
  | nil => simp [getRangeLoop]
  | cons r rest ih =>
    by_cases h : ts ≥ r.start
    · simp only [getRangeLoop, if_pos h]
      constructor
      · intro hc; exact absurd hc (by simp)
      · intro hall; exact absurd (hall r (List.mem_cons_self r rest)) (not_lt.mpr h)
    · simp only [getRangeLoop, if_neg h, ih]
      constructor
      · intro hall x hx
        rcases List.mem_cons.mp hx with rfl | hx
        · exact lt_of_not_ge h
        · exact hall x hx
      · intro hall x hx; exact hall x (List.mem_cons_of_mem r hx)

/-- A `some` answer of the downward scan is the first element, in scan
order, whose `start` is at or before `ts`. -/
theorem getRangeLoop_some {ts s e : ℚ} {l : List Range}
    (h : getRangeLoop ts l = some (s, e)) :
    ∃ l1 r l2, l = l1 ++ r :: l2 ∧ (∀ x ∈ l1, ts < x.start) ∧
      r.start ≤ ts ∧ s = r.start ∧ e = r.stop := by
  induction l with
  | nil => simp [getRangeLoop] at h
  | cons r rest ih =>
    by_cases hr : ts ≥ r.start
    · rw [getRangeLoop, if_pos hr] at h
      obtain ⟨hs, he⟩ : r.start = s ∧ r.stop = e := by
        simpa using h
      exact ⟨[], r, rest, rfl, by simp, hr, hs.symm, he.symm⟩
    · rw [getRangeLoop, if_neg hr] at h
      obtain ⟨l1, rr, l2, heq, hall, hle, hs, he⟩ := ih h
      refine ⟨r :: l1, rr, l2, by rw [heq]; rfl, ?_, hle, hs, he⟩
      intro x hx
      rcases List.mem_cons.mp hx with rfl | hx
      · exact lt_of_not_ge hr
      · exact hall x hx

/-- C5: the free `getRange` returns the pair of the highest-indexed range
whose `start ≤ ts` — the decomposition below exhibits that range, with
every later range starting strictly after `ts`, and no `ts < end` test —
and `null` exactly when no range has `start ≤ ts`; `getGap` is
`end - ts` of that pair (possibly negative) and `Infinity` when the pair
is `null`; on the single range `{0, 10, 1}`: `getGap 5 = 5`,
`getGap 15 = -5`, `getGap (-1) = Infinity`. -/
theorem c5_getRange_getGap :
    (∀ ts : ℚ, ∀ ranges : List Range,
      (getRange ts ranges = none ↔ ∀ r ∈ ranges, ts < r.start)) ∧
    (∀ ts : ℚ, ∀ ranges : List Range, ∀ s e : ℚ,
      getRange ts ranges = some (s, e) →
        ∃ l1 r l2, ranges = l1 ++ r :: l2 ∧ r.start ≤ ts ∧
          (∀ x ∈ l2, ts < x.start) ∧ s = r.start ∧ e = r.stop) ∧
    (∀ ts : ℚ, ∀ ranges : List Range, ∀ s e : ℚ,
      getRange ts ranges = some (s, e) → getGap ts ranges = ((e - ts : ℚ) : WithTop ℚ)) ∧
    getGap 5 [⟨0, 10, 1⟩] = ((5 : ℚ) : WithTop ℚ) ∧
    getGap 15 [⟨0, 10, 1⟩] = ((-5 : ℚ) : WithTop ℚ) ∧
    getGap (-1) [⟨0, 10, 1⟩] = ⊤ := by
  refine ⟨?_, ?_, ?_, ?_, ?_, ?_⟩
  · intro ts ranges
    rw [getRange, getRangeLoop_none_iff]
    constructor
    · intro h r hr; exact h r (List.mem_reverse.mpr hr)
    · intro h r hr; exact h r (List.mem_reverse.mp hr)
  · intro ts ranges s e h
    obtain ⟨l1, r, l2, heq, hall, hle, hs, he⟩ := getRangeLoop_some h
    refine ⟨l2.reverse, r, l1.reverse, ?_, hle, ?_, hs, he⟩
    · have : ranges.reverse.reverse = (l1 ++ r :: l2).reverse := by rw [heq]
      simpa [List.reverse_append] using this
    · intro x hx; exact hall x (List.mem_reverse.mp hx)
  · intro ts ranges s e h
    rw [getGap, h]
  · norm_num [getGap, getRange, getRangeLoop]
  · norm_num [getGap, getRange, getRangeLoop]
  · norm_num [getGap, getRange, getRangeLoop]

/-- C5 witness: the `some` characterisation applied at `ts = 15` on
`[{0, 10, 1}]` — the gap case where the preceding range is returned. -/
theorem c5_getRange_getGap_witness :
    getRange 15 [⟨0, 10, 1⟩] = some (0, 10) ∧
    (∃ l1 r l2, ([⟨0, 10, 1⟩] : List Range) = l1 ++ r :: l2 ∧ r.start ≤ 15 ∧
      (∀ x ∈ l2, (15 : ℚ) < x.start) ∧ (0 : ℚ) = r.start ∧ (10 : ℚ) = r.stop) := by
  have hg : getRange 15 [⟨0, 10, 1⟩] = some (0, 10) := by
    norm_num [getRange, getRangeLoop]
  exact ⟨hg, c5_getRange_getGap.2.1 15 [⟨0, 10, 1⟩] 0 10 hg⟩

theorem coveredBy_append {l1 l2 : List Range} {p : ℚ} :
    coveredBy (l1 ++ l2) p ↔ coveredBy l1 p ∨ coveredBy l2 p := by
  constructor
  · rintro ⟨r, hr, hp⟩
    rcases List.mem_append.mp hr with h | h
    · exact Or.inl ⟨r, h, hp⟩
    · exact Or.inr ⟨r, h, hp⟩
  · rintro (⟨r, h, hp⟩ | ⟨r, h, hp⟩)
    · exact ⟨r, List.mem_append.mpr (Or.inl h), hp⟩
    · exact ⟨r, List.mem_append.mpr (Or.inr h), hp⟩

theorem coveredBy_cons {r : Range} {l : List Range} {p : ℚ} :
    coveredBy (r :: l) p ↔ (r.start ≤ p ∧ p < r.stop) ∨ coveredBy l p := by
  constructor
  · rintro ⟨x, hx, hp⟩
    rcases List.mem_cons.mp hx with rfl | hx
    · exact Or.inl hp
    · exact Or.inr ⟨x, hx, hp⟩
  · rintro (h | ⟨x, hx, hp⟩)
    · exact ⟨r, List.mem_cons_self r l, h⟩
    · exact ⟨x, List.mem_cons_of_mem r hx, hp⟩

/-- One unfolding step of `removeEmptyRanges` on a non-empty list. -/
theorem removeEmptyRanges_cons (r : Range) (rest : List Range) :
    removeEmptyRanges (r :: rest) =
      if r.start = r.stop then
        match rest with
        | [] => []
        | [s] => [s]
        | s :: t :: rest3 => s :: t :: removeEmptyRanges rest3
      else
        r :: removeEmptyRanges rest := by
  rw [removeEmptyRanges.eq_def]

theorem coveredBy_removeEmptyRanges_aux {p : ℚ} :
    ∀ (n : ℕ) (l : List Range), l.length ≤ n → coveredBy l p →
      coveredBy (removeEmptyRanges l) p := by
  intro n
  induction n with
  | zero =>
    intro l hl h
    rw [List.length_eq_zero.mp (Nat.le_zero.mp hl)] at h
    exact absurd h (by simp [coveredBy])
  | succ n ih =>
    intro l hl h
    match l, hl, h with
    | [], _, h => exact absurd h (by simp [coveredBy])
    | r :: rest, hl, h =>
      rw [removeEmptyRanges_cons]
      simp only [List.length_cons] at hl
      rcases coveredBy_cons.mp h with hr | hrest
      · have hne : ¬ r.start = r.stop := fun he => by
          rw [he] at hr; exact absurd (lt_of_le_of_lt hr.1 hr.2) (lt_irrefl _)
        rw [if_neg hne]
        exact coveredBy_cons.mpr (Or.inl hr)
      · by_cases he : r.start = r.stop
        · rw [if_pos he]
          match rest, hl, hrest with
          | [], _, hrest => exact absurd hrest (by simp [coveredBy])
          | [s], _, hrest =>
            rcases coveredBy_cons.mp hrest with hs | hs
            · exact coveredBy_cons.mpr (Or.inl hs)
            · exact absurd hs (by simp [coveredBy])
          | s :: t :: rest3, hl, hrest =>
            rcases coveredBy_cons.mp hrest with hs | hs
            · exact coveredBy_cons.mpr (Or.inl hs)
            · rcases coveredBy_cons.mp hs with ht | ht
              · exact coveredBy_cons.mpr (Or.inr (coveredBy_cons.mpr (Or.inl ht)))
              · refine coveredBy_cons.mpr (Or.inr (coveredBy_cons.mpr (Or.inr
                  (ih rest3 ?_ ht))))
                simp only [List.length_cons] at hl
                omega
        · rw [if_neg he]
          exact coveredBy_cons.mpr (Or.inr (ih rest (by omega) hrest))

/-- `removeEmptyRanges` never uncovers a point: every range it drops or
skips past is either zero-length (covers nothing) or is kept. -/
theorem coveredBy_removeEmptyRanges {p : ℚ} {l : List Range} (h : coveredBy l p) :
    coveredBy (removeEmptyRanges l) p :=
  coveredBy_removeEmptyRanges_aux l.length l le_rfl h

theorem coveredBy_mergeContiguousRanges_aux {p : ℚ} :
    ∀ (n : ℕ) (l : List Range), l.length ≤ n → coveredBy l p →
      coveredBy (mergeContiguousRanges l) p := by
  intro n
  induction n with
  | zero =>
    intro l hl h
    rw [List.length_eq_zero.mp (Nat.le_zero.mp hl)] at h
    exact absurd h (by simp [coveredBy])
  | succ n ih =>
    intro l hl h
    match l, hl, h with
    | [], _, h => exact absurd h (by simp [coveredBy])
    | [r], _, h => simpa only [mergeContiguousRanges] using h
    | r :: s :: rest, hl, h =>
      rw [mergeContiguousRanges]
      simp only [List.length_cons] at hl
      split_ifs with hcond
      · apply ih (unionWithOverlappingOrContiguousRange r s s.bitrate :: rest)
          (by simp only [List.length_cons]; omega)
        rcases coveredBy_cons.mp h with hr | hr
        · exact coveredBy_cons.mpr (Or.inl
            ⟨le_trans (min_le_left _ _) hr.1, lt_of_lt_of_le hr.2 (le_max_left _ _)⟩)
        · rcases coveredBy_cons.mp hr with hs | hs
          · exact coveredBy_cons.mpr (Or.inl
              ⟨le_trans (min_le_right _ _) hs.1, lt_of_lt_of_le hs.2 (le_max_right _ _)⟩)
          · exact coveredBy_cons.mpr (Or.inr hs)
      · rcases coveredBy_cons.mp h with hr | hr
        · exact coveredBy_cons.mpr (Or.inl hr)
        · exact coveredBy_cons.mpr (Or.inr
            (ih (s :: rest) (by simp only [List.length_cons]; omega) hr))

/-- Merging contiguous same-bitrate neighbours never uncovers a point:
the union interval contains both merged intervals. -/
theorem coveredBy_mergeContiguousRanges {p : ℚ} {l : List Range} (h : coveredBy l p) :
    coveredBy (mergeContiguousRanges l) p :=
  coveredBy_mergeContiguousRanges_aux l.length l le_rfl h

set_option maxHeartbeats 2000000

/-- The `insertInto` scan loop preserves every covered point of the array
and covers every point of the candidate. -/
theorem coveredBy_insertLoop {p : ℚ} :
    ∀ (rest : List Range) (added : Range) (prev : List Range),
      added.start < added.stop →
      (coveredBy prev p ∨ coveredBy rest p ∨ (added.start ≤ p ∧ p < added.stop)) →
      coveredBy (insertLoop added prev rest) p := by
  intro rest
  induction rest with
  | nil =>
    intro added prev hadd h
    rw [insertLoop]
    rcases h with h | h | h
    · exact coveredBy_append.mpr (Or.inl h)
    · exact absurd h (by simp [coveredBy])
    · exact coveredBy_append.mpr (Or.inr (coveredBy_cons.mpr (Or.inl h)))
  | cons current rest ih =>
    intro added prev hadd h
    simp only [insertLoop]
    split_ifs with hoc hsame hov hc1 hc2 hlt
    · -- same bitrate: merge into the union and continue
      apply ih _ _ (lt_of_le_of_lt (min_le_left _ _)
        (lt_of_lt_of_le hadd (le_max_left _ _)))
      rcases h with h | h | h
      · exact Or.inl h
      · rcases coveredBy_cons.mp h with hc | hc
        · exact Or.inr (Or.inr
            ⟨le_trans (min_le_right _ _) hc.1, lt_of_lt_of_le hc.2 (le_max_right _ _)⟩)
        · exact Or.inr (Or.inl hc)
      · exact Or.inr (Or.inr
          ⟨le_trans (min_le_left _ _) h.1, lt_of_lt_of_le h.2 (le_max_left _ _)⟩)
    · -- split: `current` is partitioned into left part, candidate, right part
      apply ih _ _ hc1.2.2
      rcases h with h | h | h
      · exact Or.inl (coveredBy_append.mpr (Or.inl h))
      · rcases coveredBy_cons.mp h with hc | hc
        · by_cases hp1 : p < added.start
          · exact Or.inl (coveredBy_append.mpr (Or.inr
              (coveredBy_cons.mpr (Or.inl ⟨hc.1, hp1⟩))))
          · by_cases hp2 : p < added.stop
            · exact Or.inl (coveredBy_append.mpr (Or.inr (coveredBy_cons.mpr
                (Or.inr (coveredBy_cons.mpr (Or.inl ⟨not_lt.mp hp1, hp2⟩))))))
            · exact Or.inr (Or.inr ⟨not_lt.mp hp2, hc.2⟩)
        · exact Or.inr (Or.inl hc)
      · exact Or.inl (coveredBy_append.mpr (Or.inr (coveredBy_cons.mpr
          (Or.inr (coveredBy_cons.mpr (Or.inl h))))))
    · -- `added` contains `current`: the deleted range is inside the candidate
      apply ih _ _ hadd
      rcases h with h | h | h
      · exact Or.inl h
      · rcases coveredBy_cons.mp h with hc | hc
        · exact Or.inr (Or.inr ⟨le_trans hc2.1.1 hc.1, lt_trans hc.2 hc2.2.2⟩)
        · exact Or.inr (Or.inl hc)
      · exact Or.inr (Or.inr h)
    · -- partial overlap, `current` starts first: its tail is trimmed to
      -- `added.start`, and the trimmed part lies inside the candidate
      apply ih _ _ hadd
      have hcs : current.stop ≤ added.stop := by
        rcases hov with h1 | h1 | h1
        · exact absurd h1.1 (not_le.mpr hlt)
        · exact h1.2.le
        · by_contra hcon
          exact hc1 ⟨h1, ⟨le_trans h1.1 hadd.le, not_le.mp hcon⟩⟩
      rcases h with h | h | h
      · exact Or.inl (coveredBy_append.mpr (Or.inl h))
      · rcases coveredBy_cons.mp h with hc | hc
        · by_cases hp1 : p < added.start
          · exact Or.inl (coveredBy_append.mpr (Or.inr
              (coveredBy_cons.mpr (Or.inl ⟨hc.1, hp1⟩))))
          · exact Or.inr (Or.inr ⟨not_lt.mp hp1, lt_of_lt_of_le hc.2 hcs⟩)
        · exact Or.inr (Or.inl hc)
      · exact Or.inr (Or.inr h)
    · -- partial overlap, `added` starts first in the array order sense:
      -- `current.start` is pushed to `added.stop` and the scan breaks
      rcases h with h | h | h
      · exact coveredBy_append.mpr (Or.inl h)
      · rcases coveredBy_cons.mp h with hc | hc
        · by_cases hp2 : p < added.stop
          · exact coveredBy_append.mpr (Or.inr (coveredBy_cons.mpr
              (Or.inl ⟨le_trans (not_lt.mp hlt) hc.1, hp2⟩)))
          · exact coveredBy_append.mpr (Or.inr (coveredBy_cons.mpr (Or.inr
              (coveredBy_cons.mpr (Or.inl ⟨not_lt.mp hp2, hc.2⟩)))))
        · exact coveredBy_append.mpr (Or.inr (coveredBy_cons.mpr (Or.inr
            (coveredBy_cons.mpr (Or.inr hc)))))
      · exact coveredBy_append.mpr (Or.inr (coveredBy_cons.mpr (Or.inl h)))
    · -- contiguous with a different bitrate: break, nothing modified
      rcases h with h | h | h
      · exact coveredBy_append.mpr (Or.inl h)
      · exact coveredBy_append.mpr (Or.inr (coveredBy_cons.mpr (Or.inr h)))
      · exact coveredBy_append.mpr (Or.inr (coveredBy_cons.mpr (Or.inl h)))
    all_goals {
      -- neither overlapping nor contiguous: the scan either breaks here
      -- (the candidate and every remaining range are kept) or keeps
      -- scanning with `current` moved into the processed prefix; both
      -- outcomes preserve coverage.
      have hkeep : coveredBy (prev ++ added :: current :: rest) p := by
        rcases h with h | h | h
        · exact coveredBy_append.mpr (Or.inl h)
        · exact coveredBy_append.mpr (Or.inr (coveredBy_cons.mpr (Or.inr h)))
        · exact coveredBy_append.mpr (Or.inr (coveredBy_cons.mpr (Or.inl h)))
      have hcont : coveredBy (insertLoop added (prev ++ [current]) rest) p := by
        apply ih _ _ hadd
        rcases h with h | h | h
        · exact Or.inl (coveredBy_append.mpr (Or.inl h))
        · rcases coveredBy_cons.mp h with hc | hc
          · exact Or.inl (coveredBy_append.mpr (Or.inr
              (coveredBy_cons.mpr (Or.inl hc))))
          · exact Or.inr (Or.inl hc)
        · exact Or.inr (Or.inr h)
      split <;> (try split_ifs) <;> first | exact hkeep | exact hcont }

/-- C10: `insert` never removes coverage — every timestamp covered before
a valid `insert(b, s, e)` call is still covered afterwards, and every
timestamp of `[s, e)` is covered afterwards. -/
theorem c10_insert_never_removes_coverage (ranges : List Range) (b s e p : ℚ)
    (h0 : 0 ≤ s) (hse : s < e)
    (hcov : coveredBy ranges p ∨ (s ≤ p ∧ p < e)) :
    ∃ out, insertInto ranges b s e = some out ∧ coveredBy out p := by
  refine ⟨_, by rw [insertInto, if_pos hse.le, if_neg hse.ne], ?_⟩
  apply coveredBy_mergeContiguousRanges
  apply coveredBy_removeEmptyRanges
  apply coveredBy_insertLoop ranges ⟨s, e, b⟩ [] hse
  rcases hcov with h | h
  · exact Or.inr (Or.inl h)
  · exact Or.inr (Or.inr h)

/-- C10 witness: inserting `(2, 5, 15)` into `[{0, 10, 1}]` keeps the
previously covered point `2` covered and covers the new point `12`. -/
theorem c10_insert_never_removes_coverage_witness :
    ((0 : ℚ) ≤ 5 ∧ (5 : ℚ) < 15 ∧ coveredBy [⟨0, 10, 1⟩] 2) ∧
    (∃ out, insertInto [⟨0, 10, 1⟩] 2 5 15 = some out ∧ coveredBy out 2) ∧
    (∃ out, insertInto [⟨0, 10, 1⟩] 2 5 15 = some out ∧ coveredBy out 12) := by
  have hc : coveredBy [⟨0, 10, 1⟩] 2 := ⟨⟨0, 10, 1⟩, by simp, by norm_num⟩
  refine ⟨⟨by norm_num, by norm_num, hc⟩, ?_, ?_⟩
  · exact c10_insert_never_removes_coverage [⟨0, 10, 1⟩] 2 5 15 2
      (by norm_num) (by norm_num) (Or.inl hc)
  · exact c10_insert_never_removes_coverage [⟨0, 10, 1⟩] 2 5 15 12
      (by norm_num) (by norm_num) (Or.inr (by norm_num))

/-! ## Strictness of ranges after `insert` (amended C4) -/

/-- Every stored range has non-negative length. -/
def weakRanges (l : List Range) : Prop := ∀ r ∈ l, r.start ≤ r.stop

/-- Number of zero-length ranges in the list. -/
def emptyCount (l : List Range) : ℕ :=
  l.countP fun r => decide (r.start = r.stop)

theorem emptyCount_cons (r : Range) (l : List Range) :
    emptyCount (r :: l) = emptyCount l + if r.start = r.stop then 1 else 0 := by
  simp [emptyCount, List.countP_cons]

theorem emptyCount_append (l1 l2 : List Range) :
    emptyCount (l1 ++ l2) = emptyCount l1 + emptyCount l2 := by
  simp [emptyCount, List.countP_append]

theorem emptyCount_eq_zero_of_strict {l : List Range} (h : strictRanges l) :
    emptyCount l = 0 := by
  rw [emptyCount, List.countP_eq_zero]
  intro r hr
  simpa using (h r hr).ne

theorem strict_of_weak_emptyCount_zero {l : List Range}
    (hw : weakRanges l) (he : emptyCount l = 0) : strictRanges l := by
  intro r hr
  rw [emptyCount, List.countP_eq_zero] at he
  have := he r hr
  simp only [decide_eq_true_eq] at this
  exact lt_of_le_of_ne (hw r hr) this

/-- On a list of strictly positive ranges the cleanup is the identity. -/
theorem removeEmptyRanges_of_strict {l : List Range} (h : strictRanges l) :
    removeEmptyRanges l = l := by
  induction l with
  | nil => rfl
  | cons r rest ih =>
    rw [removeEmptyRanges_cons, if_neg (h r (List.mem_cons_self _ _)).ne,
      ih fun x hx => h x (List.mem_cons_of_mem _ hx)]

/-- With at most one zero-length range present, the cleanup removes it and
every surviving range is strict. -/
theorem strictRanges_removeEmptyRanges {l : List Range}
    (hw : weakRanges l) (he : emptyCount l ≤ 1) :
    strictRanges (removeEmptyRanges l) := by
  induction l with
  | nil => intro r hr; simp [removeEmptyRanges] at hr
  | cons r rest ih =>
    rw [removeEmptyRanges_cons]
    have hwrest : weakRanges rest := fun x hx => hw x (List.mem_cons_of_mem _ hx)
    by_cases hre : r.start = r.stop
    · rw [if_pos hre]
      have hz : emptyCount rest = 0 := by
        rw [emptyCount_cons, if_pos hre] at he
        omega
      have hsrest : strictRanges rest := strict_of_weak_emptyCount_zero hwrest hz
      match rest, hsrest with
      | [], _ => intro x hx; simp at hx
      | [s], hsrest => exact hsrest
      | s :: t :: rest3, hsrest =>
        have h3 : strictRanges rest3 := fun x hx =>
          hsrest x (List.mem_cons_of_mem _ (List.mem_cons_of_mem _ hx))
        show strictRanges (s :: t :: removeEmptyRanges rest3)
        rw [removeEmptyRanges_of_strict h3]
        exact hsrest
    · rw [if_neg hre]
      intro x hx
      rcases List.mem_cons.mp hx with rfl | hx
      · exact lt_of_le_of_ne (hw x (List.mem_cons_self _ _)) hre
      · refine ih hwrest ?_ x hx
        rw [emptyCount_cons, if_neg hre] at he
        omega

theorem strictRanges_mergeContiguousRanges_aux :
    ∀ (n : ℕ) (l : List Range), l.length ≤ n → strictRanges l →
      strictRanges (mergeContiguousRanges l) := by
  intro n
  induction n with
  | zero =>
    intro l hl h
    rw [List.length_eq_zero.mp (Nat.le_zero.mp hl)]
    intro r hr; simp [mergeContiguousRanges] at hr
  | succ n ih =>
    intro l hl h
    match l, hl, h with
    | [], _, h => intro r hr; simp [mergeContiguousRanges] at hr
    | [r], _, h => simpa only [mergeContiguousRanges] using h
    | r :: s :: rest, hl, h =>
      rw [mergeContiguousRanges]
      simp only [List.length_cons] at hl
      have hr : r.start < r.stop := h r (List.mem_cons_self _ _)
      have hs : s.start < s.stop := h s (List.mem_cons_of_mem _ (List.mem_cons_self _ _))
      split_ifs with hcond
      · refine ih _ (by simp only [List.length_cons]; omega) ?_
        intro x hx
        rcases List.mem_cons.mp hx with rfl | hx
        · exact lt_of_le_of_lt (min_le_left _ _) (lt_of_lt_of_le hr (le_max_left _ _))
        · exact h x (List.mem_cons_of_mem _ (List.mem_cons_of_mem _ hx))
      · intro x hx
        rcases List.mem_cons.mp hx with rfl | hx
        · exact hr
        · refine ih (s :: rest) (by simp only [List.length_cons]; omega) ?_ x hx
          intro y hy
          exact h y (List.mem_cons_of_mem _ hy)

/-- Merging preserves strictness. -/
theorem strictRanges_mergeContiguousRanges {l : List Range} (h : strictRanges l) :
    strictRanges (mergeContiguousRanges l) :=
  strictRanges_mergeContiguousRanges_aux l.length l le_rfl h

/-- In an ordered list of strict ranges the head's end bounds every later
start. -/
theorem chainOrdered_le_starts {c : Range} {l : List Range}
    (hc : chainOrdered (c :: l)) (hs : strictRanges l) :
    ∀ x ∈ l, c.stop ≤ x.start := by
  induction l generalizing c with
  | nil => simp
  | cons x l ih =>
    intro y hy
    have h1 : c.stop ≤ x.start := (List.chain'_cons.mp hc).1
    rcases List.mem_cons.mp hy with rfl | hy
    · exact h1
    · have hx : x.start < x.stop := hs x (List.mem_cons_self _ _)
      have h2 := ih (List.chain'_cons.mp hc).2
        (fun r hr => hs r (List.mem_cons_of_mem _ hr)) y hy
      exact le_trans h1 (le_trans hx.le h2)

/-- After a containment split the right remainder ends no later than every
remaining range, so the rest of the scan only merges, breaks or passes by:
the elements it appends are all strict. -/
theorem insertLoop_of_aligned :
    ∀ (rest : List Range) (added : Range) (prev : List Range),
      strictRanges rest → chainOrdered rest → added.start < added.stop →
      (∀ x ∈ rest, added.stop ≤ x.start) →
      ∃ suf, insertLoop added prev rest = prev ++ suf ∧ strictRanges suf := by
  intro rest
  induction rest with
  | nil =>
    intro added prev _ _ hadd _
    refine ⟨[added], by rw [insertLoop], ?_⟩
    intro x hx
    rw [List.mem_singleton.mp hx]
    exact hadd
  | cons current rest ih =>
    intro added prev hstrict hchain hadd hal
    have hcur : current.start < current.stop := hstrict current (List.mem_cons_self _ _)
    have hcs : added.stop ≤ current.start := hal current (List.mem_cons_self _ _)
    have hstrict' : strictRanges rest := fun x hx => hstrict x (List.mem_cons_of_mem _ hx)
    have hchain' : chainOrdered rest := List.Chain'.tail hchain
    have hstrictall : strictRanges (added :: current :: rest) := by
      intro x hx
      rcases List.mem_cons.mp hx with rfl | hx
      · exact hadd
      · exact hstrict x hx
    have hnov : ¬ areOverlappingRanges added current := by
      rintro (h1 | h1 | h1)
      · exact absurd h1.2 (not_lt.mpr hcs)
      · exact absurd h1.2 (not_lt.mpr (le_trans hcs hcur.le))
      · exact absurd (lt_of_lt_of_le hadd hcs) (not_lt.mpr h1.1)
    simp only [insertLoop]
    by_cases hoc : areOverlappingRanges added current ∨ areContiguousWithRanges added current
    · rw [if_pos hoc]
      by_cases hsame : sameBitrate added current
      · rw [if_pos hsame]
        refine ih _ prev hstrict' hchain'
          (lt_of_le_of_lt (min_le_left _ _) (lt_of_lt_of_le hadd (le_max_left _ _))) ?_
        intro x hx
        exact max_le (le_trans hcs (le_trans hcur.le (chainOrdered_le_starts hchain hstrict' x hx)))
          (chainOrdered_le_starts hchain hstrict' x hx)
      · rw [if_neg hsame, if_neg hnov]
        exact ⟨added :: current :: rest, rfl, hstrictall⟩
    · rw [if_neg hoc]
      have hbreak : ∃ suf, prev ++ added :: current :: rest = prev ++ suf ∧
          strictRanges suf := ⟨added :: current :: rest, rfl, hstrictall⟩
      have hcont : ∃ suf, insertLoop added (prev ++ [current]) rest = prev ++ suf ∧
          strictRanges suf := by
        obtain ⟨suf, heq, hsuf⟩ := ih added (prev ++ [current]) hstrict' hchain' hadd
          fun x hx => hal x (List.mem_cons_of_mem _ hx)
        refine ⟨current :: suf, by rw [heq, List.append_assoc]; rfl, ?_⟩
        intro x hx
        rcases List.mem_cons.mp hx with rfl | hx
        · exact hcur
        · exact hsuf x hx
      split <;> (try split_ifs) <;> first | exact hbreak | exact hcont

/-- The scan loop, started on an ordered list of strict ranges, appends
ranges of non-negative length to the processed prefix, at most one of
which is zero-length (a left remainder `current.start = added.start` of a
split, or a fully trimmed `current.start = added.stop` at a break). -/
theorem insertLoop_weak :
    ∀ (rest : List Range) (added : Range) (prev : List Range),
      strictRanges rest → chainOrdered rest → added.start < added.stop →
      ∃ suf, insertLoop added prev rest = prev ++ suf ∧ weakRanges suf ∧
        emptyCount suf ≤ 1 := by
  intro rest
  induction rest with
  | nil =>
    intro added prev _ _ hadd
    refine ⟨[added], by rw [insertLoop], ?_, ?_⟩
    · intro x hx
      rw [List.mem_singleton.mp hx]
      exact hadd.le
    · rw [show [added] = added :: [] from rfl, emptyCount_cons, if_neg hadd.ne]
      simp [emptyCount]
  | cons current rest ih =>
    intro added prev hstrict hchain hadd
    have hcur : current.start < current.stop := hstrict current (List.mem_cons_self _ _)
    have hstrict' : strictRanges rest := fun x hx => hstrict x (List.mem_cons_of_mem _ hx)
    have hchain' : chainOrdered rest := List.Chain'.tail hchain
    have hsteps := chainOrdered_le_starts hchain hstrict'
    simp only [insertLoop]
    split_ifs with hoc hsame hov hc1 hc2 hlt
    · -- same bitrate: continue with the union
      exact ih _ prev hstrict' hchain'
        (lt_of_le_of_lt (min_le_left _ _) (lt_of_lt_of_le hadd (le_max_left _ _)))
    · -- containment split
      obtain ⟨suf, heq, hsuf⟩ := insertLoop_of_aligned rest
        ⟨added.stop, current.stop, current.bitrate⟩
        (prev ++ [⟨current.start, added.start, current.bitrate⟩, added])
        hstrict' hchain' hc1.2.2 hsteps
      refine ⟨⟨current.start, added.start, current.bitrate⟩ :: added :: suf,
        by rw [heq, List.append_assoc]; rfl, ?_, ?_⟩
      · intro x hx
        rcases List.mem_cons.mp hx with rfl | hx
        · exact hc1.1.1
        · rcases List.mem_cons.mp hx with rfl | hx
          · exact hadd.le
          · exact (hsuf x hx).le
      · rw [emptyCount_cons, emptyCount_cons, emptyCount_eq_zero_of_strict hsuf,
          if_neg hadd.ne]
        split_ifs <;> omega
    · -- the candidate swallows `current`
      exact ih added prev hstrict' hchain' hadd
    · -- partial overlap, `current` starts first: trim its end
      obtain ⟨suf, heq, hw, hc⟩ := ih added
        (prev ++ [⟨current.start, added.start, current.bitrate⟩]) hstrict' hchain' hadd
      refine ⟨⟨current.start, added.start, current.bitrate⟩ :: suf,
        by rw [heq, List.append_assoc]; rfl, ?_, ?_⟩
      · intro x hx
        rcases List.mem_cons.mp hx with rfl | hx
        · exact hlt.le
        · exact hw x hx
      · rw [emptyCount_cons, if_neg hlt.ne]
        omega
    · -- partial overlap, the candidate starts first: push `current.start`
      -- to `added.stop` and break
      have hstop : added.stop ≤ current.stop := by
        rcases hov with h1 | h1 | h1
        · by_contra hcon
          exact hc2 ⟨h1, ⟨le_trans h1.1 hcur.le, not_le.mp hcon⟩⟩
        · exact absurd ⟨⟨not_lt.mp hlt, lt_trans hcur h1.2⟩, h1⟩ hc2
        · have heqs : current.start = added.start := le_antisymm h1.1 (not_lt.mp hlt)
          by_contra hcon
          exact hc2 ⟨⟨not_lt.mp hlt, lt_of_le_of_lt heqs.le hadd⟩,
            ⟨le_trans (not_lt.mp hlt) hcur.le, not_le.mp hcon⟩⟩
      refine ⟨added :: ⟨added.stop, current.stop, current.bitrate⟩ :: rest, rfl, ?_, ?_⟩
      · intro x hx
        rcases List.mem_cons.mp hx with rfl | hx
        · exact hadd.le
        · rcases List.mem_cons.mp hx with rfl | hx
          · exact hstop
          · exact (hstrict' x hx).le
      · rw [emptyCount_cons, emptyCount_cons, emptyCount_eq_zero_of_strict hstrict',
          if_neg hadd.ne]
        split_ifs <;> omega
    all_goals {
      -- contiguous with a different bitrate, or not touching at all: the
      -- scan breaks keeping everything, or moves `current` to the prefix
      have hstrictall : strictRanges (added :: current :: rest) := by
        intro x hx
        rcases List.mem_cons.mp hx with rfl | hx
        · exact hadd
        · exact hstrict x hx
      have hbreak : ∃ suf, prev ++ added :: current :: rest = prev ++ suf ∧
          weakRanges suf ∧ emptyCount suf ≤ 1 :=
        ⟨added :: current :: rest, rfl, fun x hx => (hstrictall x hx).le,
          by rw [emptyCount_eq_zero_of_strict hstrictall]; omega⟩
      have hcont : ∃ suf, insertLoop added (prev ++ [current]) rest = prev ++ suf ∧
          weakRanges suf ∧ emptyCount suf ≤ 1 := by
        obtain ⟨suf, heq, hw, hc⟩ := ih added (prev ++ [current]) hstrict' hchain' hadd
        refine ⟨current :: suf, by rw [heq, List.append_assoc]; rfl, ?_, ?_⟩
        · intro x hx
          rcases List.mem_cons.mp hx with rfl | hx
          · exact hcur.le
          · exact hw x hx
        · rw [emptyCount_cons, if_neg hcur.ne]
          omega
      (try split) <;> (try split_ifs) <;> first | exact hbreak | exact hcont }

/-- C4 amended: after any `insert` on an engine whose stored ranges are
strictly positive-length, ordered and non-overlapping, every stored range
is again strictly positive-length — the scan produces at most one
zero-length range and the cleanup removes it.  (After `intersect` this
fails: see the C4 counterexample, `intersect` has no cleanup pass.) -/
theorem c4_insert_strict_of_ordered (ranges : List Range) (b s e : ℚ)
    (hstrict : strictRanges ranges) (hord : chainOrdered ranges)
    (out : List Range) (h : insertInto ranges b s e = some out) :
    strictRanges out := by
  rw [insertInto] at h
  split_ifs at h with h1 h2
  · rw [← Option.some.inj h]
    exact hstrict
  · have hse : s < e := lt_of_le_of_ne h1 h2
    obtain ⟨suf, heq, hw, hc⟩ := insertLoop_weak ranges ⟨s, e, b⟩ [] hstrict hord hse
    rw [heq, List.nil_append] at h
    rw [← Option.some.inj h]
    exact strictRanges_mergeContiguousRanges (strictRanges_removeEmptyRanges hw hc)

/-- C4 amended witness: inserting `(2, 5, 15)` into the ordered strict
state `[{0, 10, 1}]` yields only strictly positive ranges. -/
theorem c4_insert_strict_of_ordered_witness :
    strictRanges [⟨0, 10, 1⟩] ∧ chainOrdered [⟨0, 10, 1⟩] ∧
    insertInto [⟨0, 10, 1⟩] 2 5 15 = some [⟨0, 5, 1⟩, ⟨5, 15, 2⟩] ∧
    strictRanges [⟨0, 5, 1⟩, ⟨5, 15, 2⟩] := by
  have hstrict : strictRanges [(⟨0, 10, 1⟩ : Range)] := by
    intro x hx
    rw [List.mem_singleton.mp hx]
    norm_num
  have hord : chainOrdered [(⟨0, 10, 1⟩ : Range)] := List.chain'_singleton _
  have hins : insertInto [⟨0, 10, 1⟩] 2 5 15 = some [⟨0, 5, 1⟩, ⟨5, 15, 2⟩] := by
    norm_num [insertInto, insertLoop, removeEmptyRanges, mergeContiguousRanges,
      EPSILON, abs_lt, unionWithOverlappingOrContiguousRange,
      areOverlappingRanges, areContiguousWithRanges, isPointInRange,
      isContainedInto, nearlyEqual, sameBitrate, isOrdered]
  exact ⟨hstrict, hord, hins,
    c4_insert_strict_of_ordered [⟨0, 10, 1⟩] 2 5 15 hstrict hord _ hins⟩

end Rx
